/-
Verification of the QUnfold QUBO core (`QUnfold/core/QUnfoldQUBO.py`).

The development shallowly embeds the QUBO-formulation engine:
response-matrix normalization, the logarithmic integer encoding bound,
Hamiltonian construction with Laplacian regularization, and the decoding
of sampler results.  Matrices handled row-wise by the normalizer are
lists of rows of rationals; the Hamiltonian algebra uses Mathlib
matrices over ℚ.  The two sampling back-ends are opaque oracles: a solve
operation receives the sample set they would return and is modelled from
that point on.
-/
import Mathlib

namespace QUnfold

/-- A matrix as a list of rows, the view taken by the row-wise
normalization code (`np.sum(matrix, axis=1)` etc.). -/
abbrev Mat := List (List ℚ)

/-- Tolerance of `np.allclose(v, 1)`: `atol + rtol * |1| = 1e-8 + 1e-5`. -/
def tol : ℚ := 1 / 100000000 + 1 / 100000

/-- Embeds `QUnfoldQUBO._is_normalized`: `np.allclose(np.sum(matrix, axis=1), 1)`,
i.e. every row sum is within `tol` of 1. -/
def isNormalized (M : Mat) : Bool :=
  M.all fun r => decide (|r.sum - 1| ≤ tol)

/-- One row of `QUnfoldQUBO._normalize`: rows with nonzero sum are divided
by their sum (`norm_matrix[mask] /= row_sums[mask][:, np.newaxis]` with
`mask = np.nonzero(row_sums)`); rows with zero sum are left untouched. -/
def normalizeRow (r : List ℚ) : List ℚ :=
  if r.sum ≠ 0 then r.map (· / r.sum) else r

/-- Embeds `QUnfoldQUBO._normalize` (value level): divide each row by its
own sum, skipping rows whose sum is exactly zero. -/
def normalize (M : Mat) : Mat :=
  M.map normalizeRow

/-- Embeds the normalization step of `QUnfoldQUBO.__init__`:
`if not self._is_normalized(self.R): self.R = self._normalize(self.R)`. -/
def initNormalize (M : Mat) : Mat :=
  if isNormalized M then M else normalize M

theorem sum_map_div (r : List ℚ) (s : ℚ) : (r.map (· / s)).sum = r.sum / s := by
  induction r with
  | nil => simp
  | cons a t ih => simp [ih, add_div]

theorem normalizeRow_of_sum_eq_zero {r : List ℚ} (h : r.sum = 0) :
    normalizeRow r = r := by
  simp [normalizeRow, h]

theorem normalizeRow_of_sum_ne_zero {r : List ℚ} (h : r.sum ≠ 0) :
    normalizeRow r = r.map (· / r.sum) := by
  simp [normalizeRow, h]

theorem normalizeRow_idem (r : List ℚ) : normalizeRow (normalizeRow r) = normalizeRow r := by
  by_cases h : r.sum = 0
  · simp only [normalizeRow_of_sum_eq_zero h]
  · rw [normalizeRow_of_sum_ne_zero h]
    have hsum : (r.map (· / r.sum)).sum = 1 := by
      rw [sum_map_div, div_self h]
    rw [normalizeRow_of_sum_ne_zero (by rw [hsum]; exact one_ne_zero)]
    simp [hsum]

/-- C3: normalization is idempotent.  A matrix whose rows all sum to 1
within the floating tolerance is returned unchanged by the constructor's
normalization step, and normalizing twice equals normalizing once for
every matrix, including matrices with all-zero rows. -/
theorem normalization_idempotent (M : Mat) :
    (isNormalized M = true → initNormalize M = M) ∧
    normalize (normalize M) = normalize M := by
  constructor
  · intro h
    simp [initNormalize, h]
  · unfold normalize
    rw [List.map_map]
    exact List.map_congr_left fun r _ => normalizeRow_idem r

/-- Witness for C3 at a concrete already-normalized matrix and a concrete
matrix with an all-zero row. -/
theorem normalization_idempotent_witness :
    initNormalize [[(1 : ℚ), 0], [0, 1]] = [[(1 : ℚ), 0], [0, 1]] ∧
    normalize (normalize [[(2 : ℚ), 2], [0, 0]]) = normalize [[(2 : ℚ), 2], [0, 0]] :=
  ⟨(normalization_idempotent [[(1 : ℚ), 0], [0, 1]]).1
      (by simp only [isNormalized, tol, List.all_cons, List.all_nil, List.sum_cons,
            List.sum_nil]; norm_num),
   (normalization_idempotent [[(2 : ℚ), 2], [0, 0]]).2⟩

/-- C4: zero-row safety.  Normalization is total (the division branch is
never taken on a zero-sum row): it preserves the number of rows, leaves
every zero-sum row (in particular every all-zero row) untouched, and
divides every row with nonzero sum by its own sum. -/
theorem normalize_zero_row_safe (M : Mat) (i : ℕ) (hi : i < M.length) :
    (normalize M).length = M.length ∧
    ((M.getD i []).sum = 0 → (normalize M).getD i [] = M.getD i []) ∧
    ((∀ x ∈ M.getD i [], x = 0) → ∀ x ∈ (normalize M).getD i [], x = 0) ∧
    ((M.getD i []).sum ≠ 0 →
      (normalize M).getD i [] = (M.getD i []).map (· / (M.getD i []).sum)) := by
  have hget : (normalize M).getD i [] = normalizeRow (M.getD i []) := by
    unfold normalize
    rw [List.getD_eq_getElem?_getD, List.getD_eq_getElem?_getD,
      List.getElem?_map, List.getElem?_eq_getElem hi]
    rfl
  refine ⟨by simp [normalize], ?_, ?_, ?_⟩
  · intro h0
    rw [hget, normalizeRow_of_sum_eq_zero h0]
  · intro hall x hx
    have h0 : (M.getD i []).sum = 0 := by
      have : M.getD i [] = List.replicate (M.getD i []).length 0 :=
        List.eq_replicate_of_mem hall
      rw [this]
      simp
    rw [hget, normalizeRow_of_sum_eq_zero h0] at hx
    exact hall x hx
  · intro hne
    rw [hget, normalizeRow_of_sum_ne_zero hne]

/-- Witness for C4 at a concrete matrix with an all-zero row. -/
theorem normalize_zero_row_safe_witness :
    2 < ([[(0 : ℚ), 0], [1, 3], [0, 0]] : Mat).length ∧
    (normalize [[(0 : ℚ), 0], [1, 3], [0, 0]]).getD 2 [] = [0, 0] := by
  refine ⟨by norm_num, ?_⟩
  have h := (normalize_zero_row_safe [[(0 : ℚ), 0], [1, 3], [0, 0]] 2 (by norm_num)).2.1
  rw [h (by norm_num)]
  norm_num

/-- Embeds `QUnfoldQUBO._get_laplacian`:
`np.diag(-2 * ones(dim)) + np.diag(ones(dim-1), k=1) + np.diag(ones(dim-1), k=-1)`,
written entrywise (one summand per `np.diag` call). -/
def getLaplacian (dim : ℕ) : Matrix (Fin dim) (Fin dim) ℚ :=
  Matrix.of fun i j =>
    (if i = j then -2 else 0) +
    (if (i : ℕ) + 1 = (j : ℕ) then 1 else 0) +
    (if (j : ℕ) + 1 = (i : ℕ) then 1 else 0)

/-- Embeds the linear coefficients of `QUnfoldQUBO._define_hamiltonian`:
`a = -2 * (self.R.T @ self.d)`. -/
def linCoeff {m n : ℕ} (R : Matrix (Fin m) (Fin n) ℚ) (d : Fin m → ℚ) : Fin n → ℚ :=
  fun i => -2 * Matrix.mulVec R.transpose d i

/-- Embeds the quadratic coefficients of `QUnfoldQUBO._define_hamiltonian`:
`B = (self.R.T @ self.R) + self.lam * (G.T @ G)` with `G` the Laplacian of
dimension `len(x)`. -/
def quadCoeff {m n : ℕ} (R : Matrix (Fin m) (Fin n) ℚ) (lam : ℚ) :
    Matrix (Fin n) (Fin n) ℚ :=
  R.transpose * R + lam • ((getLaplacian n).transpose * getLaplacian n)

/-- Embeds `QUnfoldQUBO._define_hamiltonian`: starting from 0, add
`a[i] * x[i]` for each `i`, then add `B[i, j] * x[i] * x[j]` for each
pair `(i, j)`.  The loop bound `dim = len(x)` equals the number of truth
bins here. -/
def defineHamiltonian {m n : ℕ} (R : Matrix (Fin m) (Fin n) ℚ) (d : Fin m → ℚ)
    (lam : ℚ) (x : Fin n → ℚ) : ℚ :=
  (∑ i, linCoeff R d i * x i) + ∑ i, ∑ j, quadCoeff R lam i j * x i * x j

/-- C2: the Hamiltonian equals `aᵗx + xᵗBx` with `a = -2·Rᵗd` and
`B = RᵗR + lam·GᵗG`; the Laplacian `G` has −2 on the diagonal, 1 on the
first off-diagonals and 0 elsewhere; `B` is affine in `lam` and
`B(0) = RᵗR` exactly. -/
theorem hamiltonian_spec {m n : ℕ} (R : Matrix (Fin m) (Fin n) ℚ) (d : Fin m → ℚ)
    (lam : ℚ) (x : Fin n → ℚ) :
    defineHamiltonian R d lam x =
      Matrix.dotProduct (linCoeff R d) x +
        Matrix.dotProduct x (Matrix.mulVec (quadCoeff R lam) x) ∧
    (∀ i, linCoeff R d i = -2 * ∑ k, R k i * d k) ∧
    (∀ i j, getLaplacian n i j =
      if i = j then -2
      else if (i : ℕ) + 1 = (j : ℕ) ∨ (j : ℕ) + 1 = (i : ℕ) then 1 else 0) ∧
    quadCoeff R lam =
      quadCoeff R 0 + lam • ((getLaplacian n).transpose * getLaplacian n) ∧
    quadCoeff R 0 = R.transpose * R := by
  refine ⟨?_, ?_, ?_, ?_, ?_⟩
  · unfold defineHamiltonian
    simp only [Matrix.dotProduct, Matrix.mulVec, Finset.mul_sum]
    congr 1
    refine Finset.sum_congr rfl fun i _ => Finset.sum_congr rfl fun j _ => ?_
    ring
  · intro i
    simp only [linCoeff, Matrix.mulVec, Matrix.dotProduct, Matrix.transpose_apply]
  · intro i j
    by_cases hij : i = j
    · subst hij
      have h1 : ¬((i : ℕ) + 1 = (i : ℕ)) := by omega
      simp [getLaplacian, h1]
    · have hne : (i : ℕ) ≠ (j : ℕ) := fun h => hij (Fin.ext h)
      by_cases h1 : (i : ℕ) + 1 = (j : ℕ)
      · have h2 : ¬((j : ℕ) + 1 = (i : ℕ)) := by omega
        simp [getLaplacian, hij, h1, h2]
      · by_cases h2 : (j : ℕ) + 1 = (i : ℕ)
        · simp [getLaplacian, hij, h1, h2]
        · simp [getLaplacian, hij, h1, h2]
  · rw [quadCoeff, quadCoeff, zero_smul, add_zero]
  · rw [quadCoeff, zero_smul, add_zero]

/-- Embeds the encoding bound of `QUnfoldQUBO._define_variables`:
`n = int(2 ** np.floor(np.log2(sum(self.d)))) - 1`.  `Int.log 2 s` is
`⌊log2 s⌋`; `2^⌊log2 s⌋` is positive, so Python's truncating `int()` is
the floor. -/
def nMax (s : ℚ) : ℤ :=
  ⌊(2 : ℚ) ^ Int.log 2 s⌋ - 1

/-- The bound as computed inside a solve call, from the measured vector:
`sum(self.d)` is the only input it reads. -/
def nMaxOf (d : List ℚ) : ℤ :=
  nMax d.sum

/-- Modelled from the spec: the decode rule of pyqubo's `LogEncInteger`
(missing from `src/`), the weighted sum of the binary digits with
positional weights `2^j`, least significant digit first. -/
def decodeVar : List Bool → ℕ
  | [] => 0
  | b :: bs => (if b then 1 else 0) + 2 * decodeVar bs

/-- Modelled from the spec: the logarithmic (positional binary) encoding
of pyqubo's `LogEncInteger` (missing from `src/`) over `[0, 2^k - 1]`,
as the list of the `k` binary digits of `v`, least significant first. -/
def encodeBits (k v : ℕ) : List Bool :=
  (List.range k).map fun j => v.testBit j

theorem decode_encode {k v : ℕ} (h : v < 2 ^ k) :
    decodeVar (encodeBits k v) = v := by
  induction k generalizing v with
  | zero =>
    interval_cases v
    rfl
  | succ k ih =>
    have hrest : (List.range k).map (fun j => v.testBit (j + 1)) = encodeBits k (v / 2) := by
      unfold encodeBits
      exact List.map_congr_left fun j _ => Nat.testBit_succ v j
    have hsplit : encodeBits (k + 1) v = v.testBit 0 :: encodeBits k (v / 2) := by
      unfold encodeBits
      rw [List.range_succ_eq_map, List.map_cons, List.map_map]
      exact congrArg _ hrest
    have hdiv : v / 2 < 2 ^ k := by
      have h2 : 2 ^ (k + 1) = 2 * 2 ^ k := by ring
      omega
    have hbit : (if v.testBit 0 then 1 else 0) = v % 2 := by
      rw [Nat.testBit_zero]
      rcases Nat.mod_two_eq_zero_or_one v with h2 | h2 <;> simp [h2]
    rw [hsplit]
    show (if v.testBit 0 then 1 else 0) + 2 * decodeVar (encodeBits k (v / 2)) = v
    rw [hbit, ih hdiv]
    omega

theorem nMax_eq_pow {s : ℚ} (hs : 1 ≤ s) :
    nMax s = 2 ^ (Int.log 2 s).toNat - 1 := by
  have hpos : (0 : ℚ) < s := lt_of_lt_of_le one_pos hs
  have hk : 0 ≤ Int.log 2 s := by
    have h10 : (2 : ℚ) ^ (0 : ℤ) ≤ s := by simpa using hs
    exact (Int.zpow_le_iff_le_log (by norm_num) hpos).mp h10
  have hzpow : (2 : ℚ) ^ Int.log 2 s = ((2 ^ (Int.log 2 s).toNat : ℕ) : ℚ) := by
    conv_lhs => rw [← Int.toNat_of_nonneg hk]
    rw [zpow_natCast]
    push_cast
    ring
  rw [nMax, hzpow, Int.floor_natCast]
  push_cast
  ring

/-- C5: encoding round-trip.  For a measured total `s ≥ 1` the shared
bound is `n_max = 2^⌊log2 s⌋ − 1`, one less than a power of two, and
every integer `v` in `[0, n_max]` is recovered exactly by encoding it
into its `⌊log2 s⌋` binary digits and decoding them by the weighted sum
of the digits. -/
theorem encoding_round_trip (s : ℚ) (v : ℕ) (hs : 1 ≤ s) (hv : (v : ℤ) ≤ nMax s) :
    nMax s = 2 ^ (Int.log 2 s).toNat - 1 ∧
    decodeVar (encodeBits (Int.log 2 s).toNat v) = v := by
  have heq := nMax_eq_pow hs
  refine ⟨heq, decode_encode ?_⟩
  rw [heq] at hv
  have hcast : ((2 ^ (Int.log 2 s).toNat : ℕ) : ℤ) = 2 ^ (Int.log 2 s).toNat := by
    push_cast
    ring
  omega

/-- Witness for C5 at `Σd = 4`, `v = 2`. -/
theorem encoding_round_trip_witness :
    nMax 4 = 2 ^ (Int.log 2 (4 : ℚ)).toNat - 1 ∧
    decodeVar (encodeBits (Int.log 2 (4 : ℚ)).toNat 2) = 2 := by
  have hlog : Int.log 2 (4 : ℚ) = 2 := by
    rw [show (4 : ℚ) = ((4 : ℕ) : ℚ) by norm_num, Int.log_natCast]
    have : Nat.log 2 4 = 2 := Nat.log_eq_of_pow_le_of_lt_pow (by norm_num) (by norm_num)
    exact_mod_cast this
  refine encoding_round_trip 4 2 (by norm_num) ?_
  rw [nMax, hlog]
  norm_num

theorem nMax_of_lt_one {s : ℚ} (hs : 0 < s) (h : s < 1) : nMax s = -1 := by
  have hk : Int.log 2 s < 0 := by
    have h10 : s < (2 : ℚ) ^ (0 : ℤ) := by simpa using h
    exact (Int.lt_zpow_iff_log_lt (by norm_num) hs).mp h10
  have hle : (2 : ℚ) ^ Int.log 2 s ≤ (2 : ℚ) ^ (-1 : ℤ) :=
    zpow_le_zpow_right₀ (by norm_num) (by omega)
  have hlt1 : (2 : ℚ) ^ Int.log 2 s < 1 := lt_of_le_of_lt hle (by norm_num)
  have hpos : (0 : ℚ) < (2 : ℚ) ^ Int.log 2 s := zpow_pos (by norm_num) _
  have hfloor : ⌊(2 : ℚ) ^ Int.log 2 s⌋ = 0 := by
    rw [Int.floor_eq_zero_iff]
    exact ⟨le_of_lt hpos, hlt1⟩
  rw [nMax, hfloor]
  norm_num

theorem nMax_of_one_le_lt_two {s : ℚ} (h1 : 1 ≤ s) (h2 : s < 2) : nMax s = 0 := by
  have hpos : (0 : ℚ) < s := lt_of_lt_of_le one_pos h1
  have hk0 : 0 ≤ Int.log 2 s := by
    have h10 : (2 : ℚ) ^ (0 : ℤ) ≤ s := by simpa using h1
    exact (Int.zpow_le_iff_le_log (by norm_num) hpos).mp h10
  have hk1 : Int.log 2 s < 1 := by
    have h12 : s < (2 : ℚ) ^ (1 : ℤ) := by simpa using h2
    exact (Int.lt_zpow_iff_log_lt (by norm_num) hpos).mp h12
  have hk : Int.log 2 s = 0 := by omega
  rw [nMax, hk]
  norm_num

/-- C10: the per-solve encoding bound `n_max = int(2^⌊log2(Σd)⌋) − 1`
depends only on the total `Σd` of the measured vector; it is at least 1
iff `Σd ≥ 2`; for `Σd ∈ [1, 2)` it is 0 (every encoded variable is
forced to 0), and for `0 < Σd < 1` it is negative (an empty integer
range), so no positive bin count is representable. -/
theorem nMax_boundary (s : ℚ) (hs : 0 < s) :
    (∀ d : List ℚ, d.sum = s → nMaxOf d = nMax s) ∧
    (1 ≤ nMax s ↔ 2 ≤ s) ∧
    (1 ≤ s → s < 2 → nMax s = 0) ∧
    (s < 1 → nMax s < 0) := by
  refine ⟨fun d hd => by rw [nMaxOf, hd], ⟨?_, ?_⟩, fun h1 h2 => nMax_of_one_le_lt_two h1 h2,
    fun h => by rw [nMax_of_lt_one hs h]; norm_num⟩
  · intro hge
    by_contra hlt
    push_neg at hlt
    rcases lt_or_le s 1 with h1 | h1
    · rw [nMax_of_lt_one hs h1] at hge
      omega
    · rw [nMax_of_one_le_lt_two h1 hlt] at hge
      omega
  · intro h2
    have hk : 1 ≤ Int.log 2 s := by
      have h12 : (2 : ℚ) ^ (1 : ℤ) ≤ s := by simpa using h2
      exact (Int.zpow_le_iff_le_log (by norm_num) hs).mp h12
    have hle : (2 : ℚ) ^ (1 : ℤ) ≤ (2 : ℚ) ^ Int.log 2 s :=
      zpow_le_zpow_right₀ (by norm_num) hk
    have hfloor : 2 ≤ ⌊(2 : ℚ) ^ Int.log 2 s⌋ := by
      rw [Int.le_floor]
      calc ((2 : ℤ) : ℚ) = (2 : ℚ) ^ (1 : ℤ) := by norm_num
        _ ≤ (2 : ℚ) ^ Int.log 2 s := hle
    rw [nMax]
    omega

/-- Witness for C10 at `Σd = 3/2` and `Σd = 1/2`. -/
theorem nMax_boundary_witness :
    nMax ((3 : ℚ) / 2) = 0 ∧ nMax ((1 : ℚ) / 2) < 0 :=
  ⟨(nMax_boundary ((3 : ℚ) / 2) (by norm_num)).2.2.1 (by norm_num) (by norm_num),
   (nMax_boundary ((1 : ℚ) / 2) (by norm_num)).2.2.2 (by norm_num)⟩

/-- One decoded sample, as produced by `model.decode_sampleset`: for each
encoded variable (in label order `x0, x1, …`) the assignment of its
binary sub-variables, plus the sample's energy. -/
structure Sample where
  bits : List (List Bool)
  energy : ℚ

/-- Placeholder sample used only to state positional lookups. -/
def dfltSample : Sample :=
  ⟨[], 0⟩

/-- Embeds `min(decoded_sampleset, key=lambda s: s.energy)` on a
non-empty sample list `a :: l`: scan left to right, replacing the
current best only on a strictly smaller energy, so the first minimum
encountered wins ties. -/
def pymin (a : Sample) (l : List Sample) : Sample :=
  l.foldl (fun best s => if s.energy < best.energy then s else best) a

/-- Embeds `QUnfoldQUBO._define_variables` at the level the solve
operations consume it: the code builds
`[LogEncInteger(f"x{i}", value_range=(0, n)) for i in range(len(self.d))]`,
one encoded variable (and one label) per entry of the measured vector. -/
def defineVariablesCount (d : List ℚ) : ℕ :=
  d.length

/-- Embeds the decode tail shared by both solve operations:
`best = min(decoded, key=energy); [best.subh[label] for label in labels]`,
where `best.subh[label_i]` is pyqubo's decoded integer for variable `i`
(modelled from the spec as the weighted sum `decodeVar` of its binary
sub-variables).  An empty sample set has no decodable best sample. -/
def decodeSampleset (numVars : ℕ) (samples : List Sample) : Option (List ℕ) :=
  match samples with
  | [] => none
  | a :: rest =>
    some ((List.range numVars).map fun i => decodeVar ((pymin a rest).bits.getD i []))

/-- Embeds `QUnfoldQUBO.solve_simulated_annealing`: the sampler is an
opaque oracle, so the sample set it returns is a parameter; `num_reads`
is forwarded to the sampler without any validation. -/
def solveSimulatedAnnealing (d : List ℚ) (_numReads : ℤ) (samples : List Sample) :
    Option (List ℕ) :=
  decodeSampleset (defineVariablesCount d) samples

/-- Embeds `QUnfoldQUBO.solve_hybrid_sampler`: identical decode path,
no read-count parameter. -/
def solveHybridSampler (d : List ℚ) (samples : List Sample) : Option (List ℕ) :=
  decodeSampleset (defineVariablesCount d) samples

/-- State of a constructed `QUnfoldQUBO` object. -/
structure QUnfoldQUBOState where
  R : Mat
  d : List ℚ
  lam : ℚ

/-- Embeds `QUnfoldQUBO.__init__`: store the inputs, then normalize the
response if its rows do not already sum to 1.  No shape or sign check of
any kind is performed. -/
def qunfoldInit (response : Mat) (meas : List ℚ) (lam : ℚ) : QUnfoldQUBOState :=
  { R := initNormalize response, d := meas, lam := lam }

theorem pymin_spec (l : List Sample) (a : Sample) :
    ∃ k, k < (a :: l).length ∧
      pymin a l = (a :: l).getD k dfltSample ∧
      (∀ j, j < k → (pymin a l).energy < ((a :: l).getD j dfltSample).energy) ∧
      (∀ j, j < (a :: l).length →
        (pymin a l).energy ≤ ((a :: l).getD j dfltSample).energy) := by
  induction l generalizing a with
  | nil =>
    refine ⟨0, by simp, by simp [pymin], fun j hj => by omega, fun j hj => ?_⟩
    have hj0 : j = 0 := by simpa using hj
    subst hj0
    simp [pymin]
  | cons s t ih =>
    have hstep : pymin a (s :: t) = pymin (if s.energy < a.energy then s else a) t := rfl
    by_cases hc : s.energy < a.energy
    · rw [if_pos hc] at hstep
      obtain ⟨k, hk, heq, hstrict, hmin⟩ := ih s
      have hs0 : (pymin s t).energy ≤ s.energy := by
        have := hmin 0 (by simp)
        simpa using this
      refine ⟨k + 1, ?_, ?_, ?_, ?_⟩
      · simp only [List.length_cons] at hk ⊢
        omega
      · rw [hstep, List.getD_cons_succ]
        exact heq
      · intro j hj
        rw [hstep]
        rcases j with _ | j
        · simpa using lt_of_le_of_lt hs0 hc
        · rw [List.getD_cons_succ]
          exact hstrict j (by omega)
      · intro j hj
        rw [hstep]
        rcases j with _ | j
        · simpa using le_trans hs0 (le_of_lt hc)
        · rw [List.getD_cons_succ]
          refine hmin j ?_
          simp only [List.length_cons] at hj ⊢
          omega
    · rw [if_neg hc] at hstep
      push_neg at hc
      obtain ⟨k, hk, heq, hstrict, hmin⟩ := ih a
      have ha0 : (pymin a t).energy ≤ a.energy := by
        have := hmin 0 (by simp)
        simpa using this
      rcases k with _ | k
      · rw [List.getD_cons_zero] at heq
        refine ⟨0, by simp, ?_, fun j hj => by omega, ?_⟩
        · rw [hstep, List.getD_cons_zero]
          exact heq
        · intro j hj
          rw [hstep]
          rcases j with _ | j
          · simpa using ha0
          · rcases j with _ | j
            · rw [List.getD_cons_succ, List.getD_cons_zero]
              exact le_trans ha0 hc
            · rw [List.getD_cons_succ, List.getD_cons_succ]
              have := hmin (j + 1) (by simp only [List.length_cons] at hj ⊢; omega)
              rw [List.getD_cons_succ] at this
              exact this
      · refine ⟨k + 2, ?_, ?_, ?_, ?_⟩
        · simp only [List.length_cons] at hk ⊢
          omega
        · rw [hstep, List.getD_cons_succ, List.getD_cons_succ]
          rw [List.getD_cons_succ] at heq
          exact heq
        · intro j hj
          rw [hstep]
          rcases j with _ | j
          · have := hstrict 0 (by omega)
            rw [List.getD_cons_zero] at this
            simpa using this
          · rcases j with _ | j
            · have := hstrict 0 (by omega)
              rw [List.getD_cons_zero] at this
              rw [List.getD_cons_succ, List.getD_cons_zero]
              exact lt_of_lt_of_le this hc
            · rw [List.getD_cons_succ, List.getD_cons_succ]
              have := hstrict (j + 1) (by omega)
              rw [List.getD_cons_succ] at this
              exact this
        · intro j hj
          rw [hstep]
          rcases j with _ | j
          · simpa using ha0
          · rcases j with _ | j
            · rw [List.getD_cons_succ, List.getD_cons_zero]
              exact le_trans ha0 hc
            · rw [List.getD_cons_succ, List.getD_cons_succ]
              have := hmin (j + 1) (by simp only [List.length_cons] at hj ⊢; omega)
              rw [List.getD_cons_succ] at this
              exact this

/-- C6: decoding a non-empty sample set selects the sample with minimum
energy, breaking ties by taking the first minimum in the iteration
order, and returns the ordered vector of each bin's integer value
reconstructed as the weighted sum `decodeVar` of its binary
sub-variable assignments.  Determinism on a fixed sample set is
inherent: `decodeSampleset` is a pure function of its arguments. -/
theorem decode_best_sample (numVars : ℕ) (a : Sample) (rest : List Sample) :
    ∃ k, k < (a :: rest).length ∧
      (a :: rest).getD k dfltSample = pymin a rest ∧
      decodeSampleset numVars (a :: rest) =
        some ((List.range numVars).map fun i =>
          decodeVar ((pymin a rest).bits.getD i [])) ∧
      (∀ j, j < k →
        (pymin a rest).energy < ((a :: rest).getD j dfltSample).energy) ∧
      (∀ j, j < (a :: rest).length →
        (pymin a rest).energy ≤ ((a :: rest).getD j dfltSample).energy) := by
  obtain ⟨k, hk, heq, hstrict, hmin⟩ := pymin_spec rest a
  exact ⟨k, hk, heq.symm, rfl, hstrict, hmin⟩

/-- C1 counterexample: with the valid input `R = [[1, 0]]` (1 measured
bin, 2 truth bins) and `measured = [4]`, both solve operations return a
vector of length 1, not of length 2 = number of columns of `R`: the code
creates one encoded variable per measured entry, so the claimed length
fails whenever `m ≠ n`. -/
theorem solve_length_counterexample :
    ([[(1 : ℚ), 0]] : Mat).length = ([(4 : ℚ)] : List ℚ).length ∧
    (([[(1 : ℚ), 0]] : Mat).getD 0 []).length = 2 ∧
    solveSimulatedAnnealing [(4 : ℚ)] 100 [⟨[[true, false]], 0⟩] = some [1] ∧
    solveHybridSampler [(4 : ℚ)] [⟨[[true, false]], 0⟩] = some [1] ∧
    ([1] : List ℕ).length ≠ 2 :=
  ⟨rfl, rfl, rfl, rfl, by norm_num⟩

/-- C1 (amended): on every sample set a sampler can return, both solve
operations return a vector whose length equals the length of the
measured vector (the number of rows of `R` on valid shapes, and the
number of encoded variables); it equals the number of truth bins only
when `R` is square. -/
theorem solve_length_amended (d : List ℚ) (numReads : ℤ) (samples : List Sample)
    (res : List ℕ)
    (h : solveSimulatedAnnealing d numReads samples = some res ∨
      solveHybridSampler d samples = some res) :
    res.length = d.length := by
  have hlen : ∀ r : List ℕ, decodeSampleset (defineVariablesCount d) samples = some r →
      r.length = d.length := by
    intro r hr
    cases samples with
    | nil => exact absurd hr (by simp [decodeSampleset])
    | cons a rest =>
      have : some _ = some r := hr
      have hr' := Option.some.inj this
      rw [← hr']
      simp [defineVariablesCount]
  rcases h with h | h
  · exact hlen res h
  · exact hlen res h

/-- Witness for C1 (amended) at a concrete 2-entry measured vector and a
1-sample set. -/
theorem solve_length_amended_witness :
    ([0, 1] : List ℕ).length = ([(4 : ℚ), 5] : List ℚ).length :=
  solve_length_amended [(4 : ℚ), 5] 100 [⟨[[], [true]], 0⟩] [0, 1] (Or.inl rfl)

/-- C7 (code evaluated at the failing input): a response matrix with 2
rows together with a measured vector of length 1 is accepted —
construction completes with the mismatched data stored and the variable
definition step still creates one encoded variable per measured entry.
No error is raised before encoding, contradicting the claimed fail-fast
shape check. -/
theorem shape_mismatch_not_rejected :
    ([[(1 : ℚ), 0], [0, 1]] : Mat).length ≠ ([(5 : ℚ)] : List ℚ).length ∧
    qunfoldInit [[(1 : ℚ), 0], [0, 1]] [(5 : ℚ)] 0 =
      ⟨[[(1 : ℚ), 0], [0, 1]], [(5 : ℚ)], 0⟩ ∧
    defineVariablesCount [(5 : ℚ)] = 1 := by
  refine ⟨by norm_num, ?_, rfl⟩
  have hnorm : isNormalized [[(1 : ℚ), 0], [0, 1]] = true := by
    simp only [isNormalized, tol, List.all_cons, List.all_nil, List.sum_cons, List.sum_nil]
    norm_num
  rw [qunfoldInit, initNormalize, hnorm]
  simp

/-- C8 (code evaluated at the failing inputs): a negative regularization
strength `lam = -1` is accepted and stored unchanged by the constructor,
and a `solve_simulated_annealing` call with `num_reads = 0` proceeds to
sampling and decoding without any boundary check. -/
theorem invalid_config_not_rejected :
    (qunfoldInit [[(1 : ℚ)]] [(2 : ℚ)] (-1)).lam = -1 ∧
    solveSimulatedAnnealing [(2 : ℚ)] 0 [⟨[[true]], 0⟩] = some [1] :=
  ⟨rfl, rfl⟩

/-- A store of matrix objects, addressed by allocation index, to state
aliasing and mutation facts about the in-place numpy operations. -/
abbrev Heap := List Mat

/-- Read the matrix object at address `p`. -/
def heapRead (h : Heap) (p : ℕ) : Mat :=
  h.getD p []

/-- Overwrite the matrix object at address `p` (an in-place update). -/
def heapWrite (h : Heap) (p : ℕ) (M : Mat) : Heap :=
  h.set p M

/-- Embeds `QUnfoldQUBO._normalize` at the store level:
`norm_matrix = np.copy(matrix)` allocates a fresh object at the next
address, and the masked in-place division
`norm_matrix[mask] /= row_sums[mask][:, np.newaxis]` writes only to that
fresh object; the address of the copy is returned. -/
def normalizeHeap (h : Heap) (p : ℕ) : Heap × ℕ :=
  let M := heapRead h p
  let q := h.length
  (heapWrite (h ++ [M]) q (normalize M), q)

/-- Embeds `QUnfoldQUBO.__init__` at the store level: when the response
is already normalized the object is kept as is; otherwise `self.R` is
rebound to the freshly normalized copy. -/
def initNormalizeHeap (h : Heap) (p : ℕ) : Heap × ℕ :=
  if isNormalized (heapRead h p) then (h, p) else normalizeHeap h p

/-- C9: normalization never mutates the caller's matrix.  `_normalize`
returns an address distinct from the input's, the caller's object holds
exactly the same values afterwards, the returned object holds the
normalized values, and after construction the caller's object is
likewise unchanged whether or not normalization ran. -/
theorem normalize_no_mutation (h : Heap) (p : ℕ) (hp : p < h.length) :
    (normalizeHeap h p).2 ≠ p ∧
    heapRead (normalizeHeap h p).1 p = heapRead h p ∧
    heapRead (normalizeHeap h p).1 (normalizeHeap h p).2 = normalize (heapRead h p) ∧
    heapRead (initNormalizeHeap h p).1 p = heapRead h p := by
  have hlen : (h ++ [heapRead h p]).length = h.length + 1 := by simp
  have hframe : heapRead (normalizeHeap h p).1 p = heapRead h p := by
    show ((h ++ [heapRead h p]).set h.length (normalize (heapRead h p))).getD p [] =
      h.getD p []
    rw [List.getD_eq_getElem?_getD, List.getD_eq_getElem?_getD,
      List.getElem?_set_ne (by omega), List.getElem?_append_left hp]
  refine ⟨by show h.length ≠ p; omega, hframe, ?_, ?_⟩
  · show ((h ++ [heapRead h p]).set h.length (normalize (heapRead h p))).getD h.length [] =
      normalize (heapRead h p)
    rw [List.getD_eq_getElem?_getD, List.getElem?_set_self (by omega)]
    rfl
  · rw [initNormalizeHeap]
    by_cases hn : isNormalized (heapRead h p)
    · rw [if_pos hn]
    · rw [if_neg hn]
      exact hframe

/-- Witness for C9 at a concrete one-object heap holding an
unnormalized matrix. -/
theorem normalize_no_mutation_witness :
    (normalizeHeap [[[(2 : ℚ), 2]]] 0).2 ≠ 0 ∧
    heapRead (normalizeHeap [[[(2 : ℚ), 2]]] 0).1 0 = heapRead [[[(2 : ℚ), 2]]] 0 :=
  ⟨(normalize_no_mutation [[[(2 : ℚ), 2]]] 0 (by norm_num)).1,
   (normalize_no_mutation [[[(2 : ℚ), 2]]] 0 (by norm_num)).2.1⟩

end QUnfold
